import Mathlib

/-!
Shallow embedding of the two core data structures of `libprocon-rs`
(`src/fenwick.rs` and `src/segment_tree.rs`) together with proofs about
the properties stated in the repository specification.

Machine integers: Rust `usize` is 64 bits here.  Index arithmetic stays in
`Nat`; the only place where the machine width matters is
`idx & idx.wrapping_neg()`, modelled by `lowbit` below with an explicit
`2 ^ 64` mask.  Rust `while` loops are modelled by structural recursion on a
fuel argument that is always instantiated large enough; lemmas show the fuel
suffices on every reachable state.
-/

namespace Procon

/-- Rust `idx & idx.wrapping_neg()` for a 64-bit `usize`: `wrapping_neg x`
is `(2^64 - x) % 2^64`. -/
def lowbit (x : Nat) : Nat := x &&& ((2 ^ 64 - x) % 2 ^ 64)

/-- Reference description of the lowest set bit, used only inside proofs. -/
def lowbitR (n : Nat) : Nat :=
  if n = 0 then 0 else if n % 2 = 1 then 1 else 2 * lowbitR (n / 2)
decreasing_by exact Nat.div_lt_self (Nat.pos_of_ne_zero (by assumption)) (by omega)

theorem lowbitR_zero : lowbitR 0 = 0 := by rw [lowbitR]; simp

theorem lowbitR_odd {n : Nat} (h : n % 2 = 1) : lowbitR n = 1 := by
  rw [lowbitR]; simp [h]; omega

theorem lowbitR_even {n : Nat} (h0 : n ≠ 0) (h : n % 2 = 0) :
    lowbitR n = 2 * lowbitR (n / 2) := by
  rw [lowbitR]; simp [h0, h]

theorem lowbitR_two_mul {n : Nat} (h : 0 < n) : lowbitR (2 * n) = 2 * lowbitR n := by
  rw [lowbitR_even (by omega) (by omega)]
  congr 1
  congr 1
  omega

/-- Splitting a `Nat.land` into low bit and high bits. -/
theorem land_bit (a b d e : Nat) (hd : d ≤ 1) (he : e ≤ 1) :
    (2 * a + d) &&& (2 * b + e) = 2 * (a &&& b) + (d &&& e) := by
  apply Nat.eq_of_testBit_eq
  intro i
  rcases i with _ | i
  · have h1 : (2 * a + d) % 2 = d := by omega
    have h2 : (2 * b + e) % 2 = e := by omega
    have h3 : d &&& e ≤ 1 := by
      interval_cases d <;> interval_cases e <;> decide
    have h4 : (2 * (a &&& b) + (d &&& e)) % 2 = d &&& e := by omega
    rw [Nat.testBit_land, Nat.testBit_zero, Nat.testBit_zero, Nat.testBit_zero,
      h1, h2, h4]
    interval_cases d <;> interval_cases e <;> decide
  · have h1 : (2 * a + d) / 2 = a := by omega
    have h2 : (2 * b + e) / 2 = b := by omega
    have h3 : d &&& e ≤ 1 := by
      interval_cases d <;> interval_cases e <;> decide
    have h4 : (2 * (a &&& b) + (d &&& e)) / 2 = a &&& b := by omega
    rw [Nat.testBit_land, Nat.testBit_succ, Nat.testBit_succ, Nat.testBit_succ,
      h1, h2, h4, Nat.testBit_land]

/-- A number and its bitwise complement (inside `k` bits) share no bit. -/
theorem land_compl : ∀ k a : Nat, a < 2 ^ k → a &&& (2 ^ k - 1 - a) = 0 := by
  intro k
  induction k with
  | zero =>
    intro a ha
    interval_cases a
    decide
  | succ k ih =>
    intro a ha
    obtain ⟨q, r, hr, rfl⟩ : ∃ q r, r ≤ 1 ∧ a = 2 * q + r := ⟨a / 2, a % 2, by omega, by omega⟩
    have hpow : 2 ^ (k + 1) = 2 * 2 ^ k := by ring
    have hq : q < 2 ^ k := by omega
    have hcompl : 2 ^ (k + 1) - 1 - (2 * q + r) = 2 * (2 ^ k - 1 - q) + (1 - r) := by omega
    rw [hcompl, land_bit _ _ _ _ (by omega) (by omega), ih _ hq]
    have h0 : r &&& (1 - r) = 0 := by
      interval_cases r <;> decide
    rw [h0]

/-- Two's-complement mask computes the lowest set bit. -/
theorem land_neg_eq_lowbitR :
    ∀ x W : Nat, 0 < x → x < 2 ^ W → x &&& (2 ^ W - x) = lowbitR x := by
  intro x
  induction x using Nat.strong_induction_on with
  | _ x ih =>
    intro W hx hxW
    have hW : 0 < W := by
      rcases Nat.eq_zero_or_pos W with h | h
      · subst h; simp at hxW; omega
      · exact h
    obtain ⟨V, rfl⟩ : ∃ V, W = V + 1 := ⟨W - 1, by omega⟩
    have hpow : 2 ^ (V + 1) = 2 * 2 ^ V := by ring
    rcases Nat.even_or_odd x with he | ho
    · -- even case
      obtain ⟨a, rfl⟩ : ∃ a, x = 2 * a := by
        obtain ⟨a, ha⟩ := he; exact ⟨a, by omega⟩
      have ha : 0 < a := by omega
      have haV : a < 2 ^ V := by omega
      have hsub : 2 ^ (V + 1) - 2 * a = 2 * (2 ^ V - a) + 0 := by omega
      have hland := land_bit a (2 ^ V - a) 0 0 (by omega) (by omega)
      simp only [Nat.add_zero] at hland
      rw [hsub, Nat.add_zero, hland, ih a (by omega) V ha haV,
        lowbitR_two_mul ha]
      simp
    · -- odd case
      obtain ⟨a, rfl⟩ : ∃ a, x = 2 * a + 1 := by
        obtain ⟨a, ha⟩ := ho; exact ⟨a, by omega⟩
      have haV : a < 2 ^ V := by omega
      have hsub : 2 ^ (V + 1) - (2 * a + 1) = 2 * (2 ^ V - 1 - a) + 1 := by omega
      rw [hsub, land_bit _ _ _ _ (by omega) (by omega), land_compl V a haV,
        lowbitR_odd (by omega)]
      decide

theorem lowbit_eq_lowbitR {x : Nat} (hx : 0 < x) (hx64 : x < 2 ^ 64) :
    lowbit x = lowbitR x := by
  have h : (2 ^ 64 - x) % 2 ^ 64 = 2 ^ 64 - x := Nat.mod_eq_of_lt (by omega)
  rw [lowbit, h, land_neg_eq_lowbitR x 64 hx hx64]

theorem lowbitR_pos : ∀ {n : Nat}, 0 < n → 0 < lowbitR n := by
  intro n
  induction n using Nat.strong_induction_on with
  | _ n ih =>
    intro hn
    rcases Nat.even_or_odd n with he | ho
    · obtain ⟨a, rfl⟩ : ∃ a, n = 2 * a := by obtain ⟨a, ha⟩ := he; exact ⟨a, by omega⟩
      rw [lowbitR_two_mul (by omega)]
      have := ih a (by omega) (by omega)
      omega
    · rw [lowbitR_odd (Nat.odd_iff.mp ho)]; omega

theorem lowbitR_le : ∀ {n : Nat}, 0 < n → lowbitR n ≤ n := by
  intro n
  induction n using Nat.strong_induction_on with
  | _ n ih =>
    intro hn
    rcases Nat.even_or_odd n with he | ho
    · obtain ⟨a, rfl⟩ : ∃ a, n = 2 * a := by obtain ⟨a, ha⟩ := he; exact ⟨a, by omega⟩
      rw [lowbitR_two_mul (by omega)]
      have := ih a (by omega) (by omega)
      omega
    · rw [lowbitR_odd (Nat.odd_iff.mp ho)]; omega

/-- Structure of a positive number around its lowest set bit. -/
theorem lowbitR_char : ∀ {n : Nat}, 0 < n →
    ∃ a c, lowbitR n = 2 ^ a ∧ n = 2 ^ (a + 1) * c + 2 ^ a := by
  intro n
  induction n using Nat.strong_induction_on with
  | _ n ih =>
    intro hn
    rcases Nat.even_or_odd n with he | ho
    · obtain ⟨m, rfl⟩ : ∃ m, n = 2 * m := by obtain ⟨a, ha⟩ := he; exact ⟨a, by omega⟩
      obtain ⟨a, c, h1, h2⟩ := ih m (by omega) (by omega)
      refine ⟨a + 1, c, ?_, ?_⟩
      · rw [lowbitR_two_mul (by omega), h1]; ring
      · rw [h2]; ring
    · refine ⟨0, n / 2, ?_, ?_⟩
      · rw [lowbitR_odd (Nat.odd_iff.mp ho)]
        exact (pow_zero 2).symm
      · have := Nat.odd_iff.mp ho
        simp only [pow_one, pow_zero]
        omega

theorem lowbitR_pow_mul : ∀ k {m : Nat}, 0 < m →
    lowbitR (2 ^ k * m) = 2 ^ k * lowbitR m := by
  intro k
  induction k with
  | zero => intro m _; simp
  | succ k ih =>
    intro m hm
    have h : 2 ^ (k + 1) * m = 2 * (2 ^ k * m) := by ring
    rw [h, lowbitR_two_mul (Nat.mul_pos (Nat.two_pow_pos k) hm), ih hm]
    ring

/-- Inside a block `[0, 2^k)` shifted by a multiple of `2^k`, the lowest set
bit only depends on the offset. -/
theorem lowbitR_add_high : ∀ k c {r : Nat}, 0 < r → r < 2 ^ k →
    lowbitR (2 ^ k * c + r) = lowbitR r := by
  intro k
  induction k with
  | zero => intro c r hr hrk; omega
  | succ k ih =>
    intro c r hr hrk
    rcases Nat.even_or_odd r with he | ho
    · obtain ⟨s, rfl⟩ : ∃ s, r = 2 * s := by obtain ⟨a, ha⟩ := he; exact ⟨a, by omega⟩
      have hs : 0 < s := by omega
      have hsk : s < 2 ^ k := by
        have h3 : 2 ^ (k + 1) = 2 * 2 ^ k := by ring
        omega
      have h : 2 ^ (k + 1) * c + 2 * s = 2 * (2 ^ k * c + s) := by ring
      have hpos : 0 < 2 ^ k * c + s := by
        have := Nat.zero_le (2 ^ k * c)
        omega
      rw [h, lowbitR_two_mul hpos, ih c hs hsk, lowbitR_two_mul hs]
    · have hodd : r % 2 = 1 := Nat.odd_iff.mp ho
      have h2 : 2 ^ (k + 1) * c + r = 2 * (2 ^ k * c) + r := by ring
      have h : (2 ^ (k + 1) * c + r) % 2 = 1 := by rw [h2]; omega
      rw [lowbitR_odd h, lowbitR_odd hodd]

/-- Adding the lowest set bit stays inside the enclosing aligned block. -/
theorem add_lowbitR_le_pow {r b : Nat} (hr : 0 < r) (hrb : r < 2 ^ b) :
    r + lowbitR r ≤ 2 ^ b := by
  obtain ⟨a, e, h1, h2⟩ := lowbitR_char hr
  have hab : a < b := by
    have h3 : 2 ^ a ≤ r := by omega
    have := (Nat.pow_lt_pow_iff_right (a := 2) (by omega)).mp (lt_of_le_of_lt h3 hrb)
    omega
  have hb : 2 ^ b = 2 ^ (a + 1) * 2 ^ (b - (a + 1)) := by
    rw [← pow_add]
    congr 1
    omega
  have he : e < 2 ^ (b - (a + 1)) := by
    by_contra hcon
    push_neg at hcon
    have : 2 ^ (a + 1) * 2 ^ (b - (a + 1)) ≤ 2 ^ (a + 1) * e :=
      Nat.mul_le_mul_left _ hcon
    omega
  have : 2 ^ (a + 1) * (e + 1) ≤ 2 ^ (a + 1) * 2 ^ (b - (a + 1)) :=
    Nat.mul_le_mul_left _ (by omega)
  have hgoal : r + lowbitR r = 2 ^ (a + 1) * (e + 1) := by rw [h1, h2]; ring
  omega

/-- Ascending Fenwick step: the distance to the covered left end never grows. -/
theorem cov_step_le {x : Nat} (hx : 0 < x) :
    (x + lowbitR x) - lowbitR (x + lowbitR x) ≤ x - lowbitR x := by
  obtain ⟨a, c, h1, h2⟩ := lowbitR_char hx
  have hsum : x + lowbitR x = 2 ^ (a + 1) * (c + 1) := by rw [h1, h2]; ring
  have hlow : lowbitR (x + lowbitR x) = 2 ^ (a + 1) * lowbitR (c + 1) := by
    rw [hsum, lowbitR_pow_mul _ (by omega)]
  have hpos : 0 < lowbitR (c + 1) := lowbitR_pos (by omega)
  have hbig : 2 ^ (a + 1) ≤ lowbitR (x + lowbitR x) := by
    rw [hlow]
    calc 2 ^ (a + 1) = 2 ^ (a + 1) * 1 := by ring
    _ ≤ 2 ^ (a + 1) * lowbitR (c + 1) := Nat.mul_le_mul_left _ hpos
  have h3 : 2 ^ (a + 1) = 2 * 2 ^ a := by ring
  have h4 : lowbitR (x + lowbitR x) ≤ x + lowbitR x := lowbitR_le (by omega)
  omega

/-- Ascending Fenwick step: any slot covering a position below `i` that lies
strictly above `i` is at or above the next chain element of `i`. -/
theorem chain_step_le {i m : Nat} (him : i < m) (hcov : m - lowbitR m < i) :
    i + lowbitR i ≤ m := by
  have hm : 0 < m := by omega
  obtain ⟨b, d, h1, h2⟩ := lowbitR_char hm
  have hcovm : m - lowbitR m = 2 ^ (b + 1) * d := by omega
  -- `i` lies strictly inside `(2^(b+1) d, 2^(b+1) d + 2^b)`
  set r := i - 2 ^ (b + 1) * d with hr
  have hrpos : 0 < r := by omega
  have hrlt : r < 2 ^ b := by
    have h3 : 2 ^ (b + 1) = 2 * 2 ^ b := by ring
    omega
  have hi : i = 2 ^ (b + 1) * d + r := by omega
  have hlowi : lowbitR i = lowbitR r := by
    rw [hi]
    exact lowbitR_add_high (b + 1) d hrpos (by
      have h3 : 2 ^ (b + 1) = 2 * 2 ^ b := by ring
      omega)
  have hsum : r + lowbitR r ≤ 2 ^ b := add_lowbitR_le_pow hrpos hrlt
  omega

/-! ## The Fenwick element contract (`trait FenwickCompatible`) -/

variable {E : Type}

/-- The operations of `trait FenwickCompatible` (`src/fenwick.rs`). -/
structure FenwickCompatible (E : Type) where
  zero : E
  neg : E → E
  add : E → E → E

/-- Default `sub` of the trait: `Self::add(a, Self::neg(b))`. -/
def FenwickCompatible.sub (F : FenwickCompatible E) (a b : E) : E := F.add a (F.neg b)

/-- Default `scale` of the trait: `(0..n).fold(Self::zero(), |acc, _| Self::add(acc, a))`. -/
def FenwickCompatible.scale (F : FenwickCompatible E) (n : Nat) (a : E) : E :=
  (List.range n).foldl (fun acc _ => F.add acc a) F.zero

/-- The Group laws exactly as the specification states them for the
summation structure: associativity, commutativity, and inverses. -/
structure FenwickLawsStated (F : FenwickCompatible E) : Prop where
  add_assoc : ∀ a b c, F.add (F.add a b) c = F.add a (F.add b c)
  add_comm : ∀ a b, F.add a b = F.add b a
  add_neg : ∀ a, F.add a (F.neg a) = F.zero

/-- The stated Group laws strengthened with the (omitted but needed) law that
`zero` is a unit for `add`, making the contract a genuine abelian group. -/
structure FenwickLaws (F : FenwickCompatible E) extends FenwickLawsStated F : Prop where
  add_zero : ∀ a, F.add a F.zero = a

/-- Package the laws as an `AddCommGroup` so that group-theory automation
applies inside proofs. -/
def FenwickLaws.acg {F : FenwickCompatible E} (L : FenwickLaws F) : AddCommGroup E :=
  letI : Zero E := ⟨F.zero⟩
  letI : Add E := ⟨F.add⟩
  letI : Neg E := ⟨F.neg⟩
  { zero := F.zero
    add := F.add
    neg := F.neg
    add_assoc := L.add_assoc
    add_comm := L.add_comm
    add_zero := L.add_zero
    zero_add := fun a => (L.add_comm F.zero a).trans (L.add_zero a)
    neg_add_cancel := fun a => (L.add_comm (F.neg a) a).trans (L.add_neg a)
    nsmul := nsmulRec
    nsmul_zero := fun _ => rfl
    nsmul_succ := fun _ _ => rfl
    zsmul := zsmulRec
    zsmul_zero' := fun _ => rfl
    zsmul_succ' := fun _ _ => rfl
    zsmul_neg' := fun _ _ => rfl }

/-! ## `PrimitiveFenwickTree` -/

/-- Pointwise array write, used to model `self.tree[i] = v`. -/
def fupd (f : Nat → E) (i : Nat) (v : E) : Nat → E := fun j => if j = i then v else f j

theorem fupd_same (f : Nat → E) (i : Nat) (v : E) : fupd f i v i = v := if_pos rfl

theorem fupd_other (f : Nat → E) (i : Nat) (v : E) {j : Nat} (h : j ≠ i) :
    fupd f i v j = f j := if_neg h

/-- `struct PrimitiveFenwickTree { tree: Vec<T::E> }`: entry `i` of the
vector is `tree i` for `i < len`, where `len` is `self.tree.len()`. -/
structure PrimitiveFenwickTree (E : Type) where
  tree : Nat → E
  len : Nat

/-- `PrimitiveFenwickTree::new(size)`: `vec![T::zero(); size]`. -/
def PrimitiveFenwickTree.new (F : FenwickCompatible E) (size : Nat) :
    PrimitiveFenwickTree E :=
  ⟨fun _ => F.zero, size⟩

/-- The `while idx <= self.tree.len()` loop of `PrimitiveFenwickTree::add`,
as structural recursion on a fuel argument (always called with enough
fuel; each iteration strictly increases `idx`). -/
def addLoop (F : FenwickCompatible E) (len : Nat) (val : E) :
    (Nat → E) → Nat → Nat → (Nat → E)
  | t, _, 0 => t
  | t, idx, fuel + 1 =>
    if idx ≤ len then
      addLoop F len val (fupd t (idx - 1) (F.add (t (idx - 1)) val)) (idx + lowbit idx) fuel
    else t

/-- `PrimitiveFenwickTree::add(idx, val)`. -/
def PrimitiveFenwickTree.add (F : FenwickCompatible E) (pf : PrimitiveFenwickTree E)
    (idx : Nat) (val : E) : PrimitiveFenwickTree E :=
  { pf with tree := addLoop F pf.len val pf.tree (idx + 1) (pf.len + 1) }

/-- The `while idx > 0` loop of `PrimitiveFenwickTree::sum`, with the running
`result` accumulator; structural recursion on fuel (each iteration strictly
decreases `idx`). -/
def sumLoop (F : FenwickCompatible E) (t : Nat → E) : Nat → Nat → E → E
  | _, 0, result => result
  | idx, fuel + 1, result =>
    if 0 < idx then sumLoop F t (idx - lowbit idx) fuel (F.add result (t (idx - 1)))
    else result

/-- `PrimitiveFenwickTree::sum(idx)`. -/
def PrimitiveFenwickTree.sum (F : FenwickCompatible E) (pf : PrimitiveFenwickTree E)
    (idx : Nat) : E :=
  sumLoop F pf.tree (idx + 1) (idx + 2) F.zero

/-! ## `FenwickTree` -/

/-- `struct FenwickTree { diff, offset }`. -/
structure FenwickTree (E : Type) where
  diff : PrimitiveFenwickTree E
  offset : PrimitiveFenwickTree E

/-- `FenwickTree::new(size)`. -/
def FenwickTree.new (F : FenwickCompatible E) (size : Nat) : FenwickTree E :=
  ⟨PrimitiveFenwickTree.new F size, PrimitiveFenwickTree.new F size⟩

/-- `FenwickTree::add(begin, end, val)`. -/
def FenwickTree.add (F : FenwickCompatible E) (ft : FenwickTree E)
    (b e : Nat) (val : E) : FenwickTree E :=
  if b ≥ e then ft
  else
    { diff := (ft.diff.add F b val).add F e (F.neg val)
      offset := (ft.offset.add F b (F.scale b (F.neg val))).add F e (F.scale e val) }

/-- `FenwickTree::sum_until(end)`. -/
def FenwickTree.sum_until (F : FenwickCompatible E) (ft : FenwickTree E) (e : Nat) : E :=
  F.add (F.scale e (ft.diff.sum F (e - 1))) (ft.offset.sum F (e - 1))

/-- `FenwickTree::sum(begin, end)`. -/
def FenwickTree.sum (F : FenwickCompatible E) (ft : FenwickTree E) (b e : Nat) : E :=
  if b ≥ e then F.zero
  else
    match b with
    | 0 => ft.sum_until F e
    | Nat.succ _ => F.sub (ft.sum_until F e) (ft.sum_until F b)

/-! ## Reference O(N)-per-operation simulation for the summation structure -/

/-- Pointwise total at position `p` after replaying the `add` calls in
`ops` (each `(b, e, v)` contributes `v` when `b ≤ p < e`). -/
def pointVal (F : FenwickCompatible E) (ops : List (Nat × Nat × E)) (p : Nat) : E :=
  ops.foldl (fun acc o => if o.1 ≤ p ∧ p < o.2.1 then F.add acc o.2.2 else acc) F.zero

/-- Group-sum of `f` over the half-open position range `[b, e)`. -/
def rangeFold (F : FenwickCompatible E) (f : Nat → E) (b e : Nat) : E :=
  (List.range' b (e - b)).foldl (fun acc p => F.add acc (f p)) F.zero

/-- The reference answer for `sum(b, e)`: fold the pointwise totals. -/
def oracleSum (F : FenwickCompatible E) (ops : List (Nat × Nat × E)) (b e : Nat) : E :=
  rangeFold F (pointVal F ops) b e

/-- Replay a sequence of `add(b, e, v)` calls on a fresh tree of the given
size. -/
def FenwickTree.replay (F : FenwickCompatible E) (size : Nat)
    (ops : List (Nat × Nat × E)) : FenwickTree E :=
  ops.foldl (fun ft o => ft.add F o.1 o.2.1 o.2.2) (FenwickTree.new F size)

/-! ## The lazy segment tree (`src/segment_tree.rs`) -/

variable {T : Type}

/-- The operations of `trait SegmentTreeCompatible`. -/
structure SegmentTreeCompatible (T : Type) where
  ident : T
  combine : T → T → T
  apply : T → T → T
  compose : T → T → T

/-- The Monoid+Endomorphism laws exactly as the specification lists them:
`combine` associative; `apply(v, ident()) == v`;
`compose(ident(), u) == compose(u, ident()) == u`; and
`apply(apply(v, u1), u2) == apply(v, compose(u1, u2))`. -/
structure SegLawsStated (S : SegmentTreeCompatible T) : Prop where
  combine_assoc : ∀ a b c, S.combine (S.combine a b) c = S.combine a (S.combine b c)
  apply_ident : ∀ v, S.apply v S.ident = v
  compose_ident_left : ∀ u, S.compose S.ident u = u
  compose_ident_right : ∀ u, S.compose u S.ident = u
  apply_compose : ∀ v u1 u2, S.apply (S.apply v u1) u2 = S.apply v (S.compose u1 u2)

/-- The stated laws strengthened with the unit law for `combine` and with
distributivity of `apply` over `combine`; these are what a lazily-propagated
tree actually needs of its algebra. -/
structure SegLaws (S : SegmentTreeCompatible T) extends SegLawsStated S : Prop where
  combine_ident_left : ∀ v, S.combine S.ident v = v
  combine_ident_right : ∀ v, S.combine v S.ident = v
  apply_combine : ∀ v w u,
    S.apply (S.combine v w) u = S.combine (S.apply v u) (S.apply w u)

/-- Rust `usize::next_power_of_two` (`0` and `1` both give `1`): doubling
loop as structural recursion on fuel; `next_power_of_two` supplies fuel `n`,
which suffices because `2 ^ n ≥ n`. -/
def npotGo (n : Nat) : Nat → Nat → Nat
  | 0, power => power
  | fuel + 1, power => if power < n then npotGo n fuel (power * 2) else power

/-- Smallest power of two that is `≥ n` (with value `1` for `n = 0`). -/
def next_power_of_two (n : Nat) : Nat := npotGo n n 1

/-- `struct TraversalState { idx, begin, end }`; the fields `lo` and `hi`
are `begin` and `end` of the source (`end` is reserved in Lean). -/
structure TraversalState where
  idx : Nat
  lo : Nat
  hi : Nat

def TraversalState.length (s : TraversalState) : Nat := s.hi - s.lo

def TraversalState.is_leaf (s : TraversalState) : Prop := s.length = 1

instance (s : TraversalState) : Decidable s.is_leaf := by
  unfold TraversalState.is_leaf; infer_instance

def TraversalState.is_disjoint (s : TraversalState) (b e : Nat) : Prop :=
  s.lo ≥ e ∨ s.hi ≤ b

instance (s : TraversalState) (b e : Nat) : Decidable (s.is_disjoint b e) := by
  unfold TraversalState.is_disjoint; infer_instance

def TraversalState.is_included (s : TraversalState) (b e : Nat) : Prop :=
  s.lo ≥ b ∧ s.hi ≤ e

instance (s : TraversalState) (b e : Nat) : Decidable (s.is_included b e) := by
  unfold TraversalState.is_included; infer_instance

def TraversalState.left_child (s : TraversalState) : TraversalState :=
  ⟨s.idx * 2, s.lo, (s.lo + s.hi) / 2⟩

def TraversalState.right_child (s : TraversalState) : TraversalState :=
  ⟨s.idx * 2 + 1, (s.lo + s.hi) / 2, s.hi⟩

/-- `struct SegmentTree { size, values, thunks }`: the two backing vectors
(of length `2 * size.next_power_of_two()`) are modelled as total maps from
node index to element; all indices ever touched are shown bounded
separately. -/
structure SegmentTree (T : Type) where
  size : Nat
  values : Nat → T
  thunks : Nat → T

/-- `SegmentTree::new(size)`: both vectors are filled with `T::ident()`. -/
def SegmentTree.new (S : SegmentTreeCompatible T) (size : Nat) : SegmentTree T :=
  ⟨size, fun _ => S.ident, fun _ => S.ident⟩

def SegmentTree.root (st : SegmentTree T) : TraversalState := ⟨1, 0, st.size⟩

/-- `SegmentTree::push(state)`. -/
def SegmentTree.push (S : SegmentTreeCompatible T) (st : SegmentTree T)
    (state : TraversalState) : SegmentTree T :=
  let thunk := st.thunks state.idx
  let st1 : SegmentTree T :=
    { st with
      values := fupd st.values state.idx (S.apply (st.values state.idx) thunk)
      thunks := fupd st.thunks state.idx S.ident }
  if state.is_leaf then st1
  else
    let t2 := fupd st1.thunks state.left_child.idx
      (S.compose (st1.thunks state.left_child.idx) thunk)
    let t3 := fupd t2 state.right_child.idx
      (S.compose (t2 state.right_child.idx) thunk)
    { st1 with thunks := t3 }

/-- `SegmentTree::_update(begin, end, value, state)`, structural recursion on
fuel; the public `update` supplies fuel `size + 1`, enough because the
covered length strictly shrinks on every recursive call. -/
def SegmentTree._update (S : SegmentTreeCompatible T) :
    SegmentTree T → Nat → Nat → T → TraversalState → Nat → SegmentTree T
  | st, _, _, _, _, 0 => st
  | st, b, e, value, state, fuel + 1 =>
    if state.is_disjoint b e then st
    else if state.is_included b e then
      let st1 : SegmentTree T :=
        { st with thunks := fupd st.thunks state.idx (S.compose (st.thunks state.idx) value) }
      st1.push S state
    else
      let st1 := st.push S state
      let left := state.left_child
      let right := state.right_child
      let st2 := SegmentTree._update S st1 b e value left fuel
      let st3 := SegmentTree._update S st2 b e value right fuel
      { st3 with
        values := fupd st3.values state.idx
          (S.combine (st3.values left.idx) (st3.values right.idx)) }

/-- `SegmentTree::update(begin, end, value)`. -/
def SegmentTree.update (S : SegmentTreeCompatible T) (st : SegmentTree T)
    (b e : Nat) (value : T) : SegmentTree T :=
  SegmentTree._update S st b e value st.root (st.size + 1)

/-- `SegmentTree::_query(begin, end, state)`; it returns the answer and the
mutated tree (`_query` takes `&mut self` because `push` rewrites thunks). -/
def SegmentTree._query (S : SegmentTreeCompatible T) :
    SegmentTree T → Nat → Nat → TraversalState → Nat → T × SegmentTree T
  | st, _, _, _, 0 => (S.ident, st)
  | st, b, e, state, fuel + 1 =>
    if state.is_disjoint b e then (S.ident, st)
    else
      let st1 := st.push S state
      if state.is_included b e then (st1.values state.idx, st1)
      else
        let lp := SegmentTree._query S st1 b e state.left_child fuel
        let rp := SegmentTree._query S lp.2 b e state.right_child fuel
        (S.combine lp.1 rp.1, rp.2)

/-- `SegmentTree::query(begin, end)`. -/
def SegmentTree.query (S : SegmentTreeCompatible T) (st : SegmentTree T)
    (b e : Nat) : T × SegmentTree T :=
  SegmentTree._query S st b e st.root (st.size + 1)

/-! ## Reference O(N)-per-operation simulation for the lazy tree -/

/-- Pointwise simulation: value at position `p` after applying, in call
order, every update `(b, e, u)` whose range contains `p` to the initial
`ident()`. -/
def applyOps (S : SegmentTreeCompatible T) (ops : List (Nat × Nat × T)) (p : Nat) : T :=
  ops.foldl (fun acc o => if o.1 ≤ p ∧ p < o.2.1 then S.apply acc o.2.2 else acc) S.ident

/-- Left-to-right `combine` of `f` over positions `[b, e)`; `ident()` for an
empty range. -/
def combineFold (S : SegmentTreeCompatible T) (f : Nat → T) (b e : Nat) : T :=
  match List.range' b (e - b) with
  | [] => S.ident
  | p :: ps => ps.foldl (fun acc q => S.combine acc (f q)) (f p)

/-- The reference answer for `query(b, e)`. -/
def oracleQuery (S : SegmentTreeCompatible T) (ops : List (Nat × Nat × T))
    (b e : Nat) : T :=
  combineFold S (applyOps S ops) b e

/-- Replay a sequence of `update(b, e, u)` calls on a fresh tree. -/
def SegmentTree.replay (S : SegmentTreeCompatible T) (size : Nat)
    (ops : List (Nat × Nat × T)) : SegmentTree T :=
  ops.foldl (fun st o => st.update S o.1 o.2.1 o.2.2) (SegmentTree.new S size)

/-! ## The repository's own test algebra: ident 0, combine max, apply +,
compose + (`impl_segment_tree_compatible!` in the tests of
`src/segment_tree.rs`). -/

def maxAlg : SegmentTreeCompatible Nat := ⟨0, Nat.max, (· + ·), (· + ·)⟩

/-- The test algebra satisfies the full law set (hence in particular the
laws listed by the specification). -/
theorem maxAlg_laws : SegLaws maxAlg where
  combine_assoc := fun a b c => Nat.max_assoc a b c
  apply_ident := fun v => Nat.add_zero v
  compose_ident_left := fun u => Nat.zero_add u
  compose_ident_right := fun u => Nat.add_zero u
  apply_compose := fun v u1 u2 => Nat.add_assoc v u1 u2
  combine_ident_left := fun v => by simp [maxAlg]
  combine_ident_right := fun v => by simp [maxAlg]
  apply_combine := fun v w u => by
    simp only [maxAlg, Nat.max_def]
    split <;> split <;> omega

/-! ## Claim C1, C2, C3: the recombination slip in `_update`

`_update` at a partially covered node recomputes
`values[idx] = combine(values[left], values[right])` from the children's raw
`values`, ignoring thunks still pending on the children.  A child that is
disjoint from the update range keeps its pending thunk, so the parent's new
aggregate is computed from a stale child value.  On the repository's own
test algebra (combine = max) the sequence `update(0,1,10); update(0,2,5);
update(1,2,1)` on a size-2 tree leaves `values[1] = 10` while the two leaf
values are really 15 and 6. -/

/-- C1: the lazy tree does not match the O(N) reference simulation: with the
repository's own test algebra — which satisfies the full Monoid+Endomorphism
law set — after `update(0,1,10); update(0,2,5); update(1,2,1)` on a size-2
tree, `query(0,2)` returns 10, while the pointwise reference simulation
yields leaf values 15 and 6, whose left-to-right combine is 15. -/
theorem C1_oracle_divergence :
    SegLaws maxAlg ∧
    (SegmentTree.query maxAlg
      (SegmentTree.replay maxAlg 2 [(0, 1, 10), (0, 2, 5), (1, 2, 1)]) 0 2).1 = 10 ∧
    oracleQuery maxAlg [(0, 1, 10), (0, 2, 5), (1, 2, 1)] 0 2 = 15 :=
  ⟨maxAlg_laws, by decide, by decide⟩

/-- C2: the stated per-node invariant fails on the same state: at the root
(node 1, which has no strict ancestor, so every update counts),
`apply(values[1], thunks[1]) = 10`, but the left-to-right combine of the
true leaf values under it is 15. -/
theorem C2_invariant_divergence :
    SegLaws maxAlg ∧
    maxAlg.apply
      ((SegmentTree.replay maxAlg 2 [(0, 1, 10), (0, 2, 5), (1, 2, 1)]).values 1)
      ((SegmentTree.replay maxAlg 2 [(0, 1, 10), (0, 2, 5), (1, 2, 1)]).thunks 1) = 10 ∧
    combineFold maxAlg
      (applyOps maxAlg [(0, 1, 10), (0, 2, 5), (1, 2, 1)]) 0 2 = 15 :=
  ⟨maxAlg_laws, by decide, by decide⟩

/-- C3: a degenerate `update(1,1,0)` (`begin >= end`, both within
`0 ≤ i ≤ size`) is not a no-op for later queries: before it, `query(0,2)`
on the tree built by `update(0,1,10); update(0,2,5)` returns 15; after it,
the same query returns 10, because the degenerate call's descent overwrote
the correct root aggregate with a stale recombination. -/
theorem C3_degenerate_update_changes_query :
    (SegmentTree.query maxAlg
      (SegmentTree.replay maxAlg 2 [(0, 1, 10), (0, 2, 5)]) 0 2).1 = 15 ∧
    (SegmentTree.query maxAlg
      (SegmentTree.update maxAlg
        (SegmentTree.replay maxAlg 2 [(0, 1, 10), (0, 2, 5)]) 1 1 0) 0 2).1 = 10 := by
  exact ⟨by decide, by decide⟩

/-- C7: scenario D holds: on a size-4 tree over the test algebra,
`update(0,4,5); update(1,3,2); update(2,3,3)` followed by the four
single-element queries, issued in order (each query mutates the tree),
returns 5, 7, 10, 5. -/
theorem C7_scenario_D :
    (SegmentTree.query maxAlg
      (SegmentTree.replay maxAlg 4 [(0, 4, 5), (1, 3, 2), (2, 3, 3)]) 0 1).1 = 5 ∧
    (SegmentTree.query maxAlg
      (SegmentTree.query maxAlg
        (SegmentTree.replay maxAlg 4 [(0, 4, 5), (1, 3, 2), (2, 3, 3)]) 0 1).2
      1 2).1 = 7 ∧
    (SegmentTree.query maxAlg
      (SegmentTree.query maxAlg
        (SegmentTree.query maxAlg
          (SegmentTree.replay maxAlg 4 [(0, 4, 5), (1, 3, 2), (2, 3, 3)]) 0 1).2
        1 2).2
      2 3).1 = 10 ∧
    (SegmentTree.query maxAlg
      (SegmentTree.query maxAlg
        (SegmentTree.query maxAlg
          (SegmentTree.query maxAlg
            (SegmentTree.replay maxAlg 4 [(0, 4, 5), (1, 3, 2), (2, 3, 3)]) 0 1).2
          1 2).2
        2 3).2
      3 4).1 = 5 := by
  decide

/-- C8: size-0 structures work: `sum(0,0)` returns `zero()`, `query(0,0)`
returns `ident()`, and the degenerate `add(0,0,v)` / `update(0,0,u)` leave
the structures (hence those results) unchanged, for every element type and
contract instance. -/
theorem C8_size_zero (E T : Type) (F : FenwickCompatible E)
    (S : SegmentTreeCompatible T) (v : E) (u : T) :
    (FenwickTree.new F 0).sum F 0 0 = F.zero ∧
    (FenwickTree.new F 0).add F 0 0 v = FenwickTree.new F 0 ∧
    ((FenwickTree.new F 0).add F 0 0 v).sum F 0 0 = F.zero ∧
    ((SegmentTree.new S 0).query S 0 0).1 = S.ident ∧
    (SegmentTree.new S 0).update S 0 0 u = SegmentTree.new S 0 ∧
    (((SegmentTree.new S 0).update S 0 0 u).query S 0 0).1 = S.ident :=
  ⟨rfl, rfl, rfl, rfl, rfl, rfl⟩

/-! ## Claim C4: what happens at a fully covered node during `_update` -/

theorem push_size (S : SegmentTreeCompatible T) (st : SegmentTree T)
    (s : TraversalState) : (st.push S s).size = st.size := by
  unfold SegmentTree.push
  split <;> rfl

theorem push_values (S : SegmentTreeCompatible T) (st : SegmentTree T)
    (s : TraversalState) :
    (st.push S s).values
      = fupd st.values s.idx (S.apply (st.values s.idx) (st.thunks s.idx)) := by
  unfold SegmentTree.push
  split <;> rfl

theorem push_thunks_leaf (S : SegmentTreeCompatible T) (st : SegmentTree T)
    {s : TraversalState} (hl : s.is_leaf) :
    (st.push S s).thunks = fupd st.thunks s.idx S.ident := by
  unfold SegmentTree.push
  rw [if_pos hl]

theorem push_thunks_nonleaf (S : SegmentTreeCompatible T) (st : SegmentTree T)
    {s : TraversalState} (hl : ¬ s.is_leaf) :
    (st.push S s).thunks =
      let thunk := st.thunks s.idx
      let t1 := fupd st.thunks s.idx S.ident
      let t2 := fupd t1 s.left_child.idx (S.compose (t1 s.left_child.idx) thunk)
      fupd t2 s.right_child.idx (S.compose (t2 s.right_child.idx) thunk) := by
  unfold SegmentTree.push
  rw [if_neg hl]

/-- C4 counterexample: on a fresh size-2 tree over the test algebra, the root
is fully covered by `update(0,2,5)` (and not disjoint), yet after the call
`values[1]` has changed from 0 to 5, the left child's thunk has changed from
0 to 5, and the root's thunk is `ident()` rather than holding the composed
update — because `_update` pushes the covered node right after composing. -/
theorem C4_counterexample :
    ¬ (SegmentTree.new maxAlg 2).root.is_disjoint 0 2 ∧
    (SegmentTree.new maxAlg 2).root.is_included 0 2 ∧
    (SegmentTree.new maxAlg 2).values 1 = 0 ∧
    ((SegmentTree.new maxAlg 2).update maxAlg 0 2 5).values 1 = 5 ∧
    (SegmentTree.new maxAlg 2).thunks 2 = 0 ∧
    ((SegmentTree.new maxAlg 2).update maxAlg 0 2 5).thunks 2 = 5 ∧
    ((SegmentTree.new maxAlg 2).update maxAlg 0 2 5).thunks 1 = 0 := by
  refine ⟨by decide, by decide, rfl, by decide, rfl, by decide, by decide⟩

/-- C4 (amended): at a visited node fully inside `[b, e)` (and not disjoint
from it), `_update` composes `u` onto the node's thunk and then immediately
pushes that node before stopping: afterwards `thunks[idx] = ident()`,
`values[idx] = apply(old values[idx], compose(old thunks[idx], u))`, at a
non-leaf both children's thunks have `compose(old thunks[idx], u)` composed
onto their right (newer) side, and nothing else changes. -/
theorem C4_included_update_pushes (S : SegmentTreeCompatible T)
    (st : SegmentTree T) (b e : Nat) (v : T) (s : TraversalState) (fuel : Nat)
    (hidx : 0 < s.idx) (hnd : ¬ s.is_disjoint b e) (hinc : s.is_included b e) :
    let st' := SegmentTree._update S st b e v s (fuel + 1)
    st'.thunks s.idx = S.ident ∧
    st'.values s.idx = S.apply (st.values s.idx) (S.compose (st.thunks s.idx) v) ∧
    (∀ j, j ≠ s.idx → st'.values j = st.values j) ∧
    (¬ s.is_leaf →
      st'.thunks s.left_child.idx
        = S.compose (st.thunks s.left_child.idx) (S.compose (st.thunks s.idx) v) ∧
      st'.thunks s.right_child.idx
        = S.compose (st.thunks s.right_child.idx) (S.compose (st.thunks s.idx) v)) ∧
    (∀ j, j ≠ s.idx → j ≠ s.left_child.idx → j ≠ s.right_child.idx →
      st'.thunks j = st.thunks j) ∧
    (s.is_leaf → ∀ j, j ≠ s.idx → st'.thunks j = st.thunks j) := by
  intro st'
  have hL : s.left_child.idx = s.idx * 2 := rfl
  have hR : s.right_child.idx = s.idx * 2 + 1 := rfl
  have hLne : s.left_child.idx ≠ s.idx := by rw [hL]; omega
  have hRne : s.right_child.idx ≠ s.idx := by rw [hR]; omega
  have hLRne : s.left_child.idx ≠ s.right_child.idx := by rw [hL, hR]; omega
  have hst' : st' = SegmentTree.push S
      { st with thunks := fupd st.thunks s.idx (S.compose (st.thunks s.idx) v) } s := by
    show SegmentTree._update S st b e v s (fuel + 1) = _
    rw [SegmentTree._update, if_neg hnd, if_pos hinc]
  set st1 : SegmentTree T :=
    { st with thunks := fupd st.thunks s.idx (S.compose (st.thunks s.idx) v) } with hst1
  have hth1 : st1.thunks s.idx = S.compose (st.thunks s.idx) v := fupd_same ..
  have hvals : st'.values
      = fupd st.values s.idx (S.apply (st.values s.idx) (S.compose (st.thunks s.idx) v)) := by
    rw [hst', push_values]
    show fupd st1.values s.idx (S.apply (st1.values s.idx) (st1.thunks s.idx)) = _
    rw [hth1]
  refine ⟨?_, ?_, ?_, ?_, ?_, ?_⟩
  · -- thunk at the node itself is ident afterwards
    rw [hst']
    by_cases hl : s.is_leaf
    · rw [push_thunks_leaf S st1 hl]
      exact fupd_same ..
    · rw [push_thunks_nonleaf S st1 hl]
      simp only
      rw [fupd_other _ _ _ (Ne.symm hRne), fupd_other _ _ _ (Ne.symm hLne), fupd_same]
  · rw [hvals, fupd_same]
  · intro j hj
    rw [hvals, fupd_other _ _ _ hj]
  · intro hl
    rw [hst', push_thunks_nonleaf S st1 hl]
    simp only
    constructor
    · rw [fupd_other _ _ _ hLRne, fupd_same, fupd_other _ _ _ hLne,
        fupd_other _ _ _ hLne, fupd_same]
    · rw [fupd_same, fupd_other _ _ _ (Ne.symm hLRne), fupd_other _ _ _ hRne,
        fupd_other _ _ _ hRne, fupd_same]
  · intro j hj hjL hjR
    rw [hst']
    by_cases hl : s.is_leaf
    · rw [push_thunks_leaf S st1 hl, fupd_other _ _ _ hj]
      show fupd st.thunks s.idx _ j = _
      rw [fupd_other _ _ _ hj]
    · rw [push_thunks_nonleaf S st1 hl]
      simp only
      rw [fupd_other _ _ _ hjR, fupd_other _ _ _ hjL, fupd_other _ _ _ hj]
      show fupd st.thunks s.idx _ j = _
      rw [fupd_other _ _ _ hj]
  · intro hl j hj
    rw [hst', push_thunks_leaf S st1 hl, fupd_other _ _ _ hj]
    show fupd st.thunks s.idx _ j = _
    rw [fupd_other _ _ _ hj]

/-- C4 witness: the amended statement instantiated on a fresh size-2 tree
over the test algebra with `update(0,2,5)` at the (fully covered) root. -/
theorem C4_witness :
    (0 < (SegmentTree.new maxAlg 2).root.idx ∧
      ¬ (SegmentTree.new maxAlg 2).root.is_disjoint 0 2 ∧
      (SegmentTree.new maxAlg 2).root.is_included 0 2) ∧
    (let st' := SegmentTree._update maxAlg (SegmentTree.new maxAlg 2) 0 2 5
        (SegmentTree.new maxAlg 2).root (2 + 1)
     st'.thunks (SegmentTree.new maxAlg 2).root.idx = maxAlg.ident ∧
     st'.values (SegmentTree.new maxAlg 2).root.idx
       = maxAlg.apply ((SegmentTree.new maxAlg 2).values (SegmentTree.new maxAlg 2).root.idx)
           (maxAlg.compose ((SegmentTree.new maxAlg 2).thunks (SegmentTree.new maxAlg 2).root.idx) 5) ∧
     (∀ j, j ≠ (SegmentTree.new maxAlg 2).root.idx →
        st'.values j = (SegmentTree.new maxAlg 2).values j) ∧
     (¬ (SegmentTree.new maxAlg 2).root.is_leaf →
        st'.thunks (SegmentTree.new maxAlg 2).root.left_child.idx
          = maxAlg.compose ((SegmentTree.new maxAlg 2).thunks (SegmentTree.new maxAlg 2).root.left_child.idx)
              (maxAlg.compose ((SegmentTree.new maxAlg 2).thunks (SegmentTree.new maxAlg 2).root.idx) 5) ∧
        st'.thunks (SegmentTree.new maxAlg 2).root.right_child.idx
          = maxAlg.compose ((SegmentTree.new maxAlg 2).thunks (SegmentTree.new maxAlg 2).root.right_child.idx)
              (maxAlg.compose ((SegmentTree.new maxAlg 2).thunks (SegmentTree.new maxAlg 2).root.idx) 5)) ∧
     (∀ j, j ≠ (SegmentTree.new maxAlg 2).root.idx →
        j ≠ (SegmentTree.new maxAlg 2).root.left_child.idx →
        j ≠ (SegmentTree.new maxAlg 2).root.right_child.idx →
        st'.thunks j = (SegmentTree.new maxAlg 2).thunks j) ∧
     ((SegmentTree.new maxAlg 2).root.is_leaf →
        ∀ j, j ≠ (SegmentTree.new maxAlg 2).root.idx →
          st'.thunks j = (SegmentTree.new maxAlg 2).thunks j)) :=
  ⟨⟨by decide, by decide, by decide⟩,
    C4_included_update_pushes maxAlg (SegmentTree.new maxAlg 2) 0 2 5
      (SegmentTree.new maxAlg 2).root 2 (by decide) (by decide) (by decide)⟩

/-! ## Claim C9: the loop/recursion measures -/

theorem lowbit_pos {idx : Nat} (h1 : 0 < idx) (h2 : idx < 2 ^ 64) : 0 < lowbit idx := by
  rw [lowbit_eq_lowbitR h1 h2]
  exact lowbitR_pos h1

theorem lowbit_le {idx : Nat} (h1 : 0 < idx) (h2 : idx < 2 ^ 64) : lowbit idx ≤ idx := by
  rw [lowbit_eq_lowbitR h1 h2]
  exact lowbitR_le h1

/-- C9: every operation terminates.  All four embedded operations are total
Lean functions; this theorem verifies the measures the claim cites: the
Fenwick point-update index strictly increases, the Fenwick prefix-query
index strictly decreases, the two children of a tree node cover strictly
shorter (and nonempty) ranges whenever the node splits (length at least 2),
and `_update` / `_query` only recurse at such nodes, since a visited node
that is neither disjoint nor fully included has length at least 2. -/
theorem C9_termination_measures :
    (∀ idx : Nat, 0 < idx → idx < 2 ^ 64 → idx < idx + lowbit idx) ∧
    (∀ idx : Nat, 0 < idx → idx < 2 ^ 64 → idx - lowbit idx < idx) ∧
    (∀ s : TraversalState, 2 ≤ s.length →
      s.left_child.length < s.length ∧ s.right_child.length < s.length ∧
      0 < s.left_child.length ∧ 0 < s.right_child.length) ∧
    (∀ (s : TraversalState) (b e : Nat),
      ¬ s.is_disjoint b e → ¬ s.is_included b e → 2 ≤ s.length) := by
  refine ⟨?_, ?_, ?_, ?_⟩
  · intro idx h1 h2
    have := lowbit_pos h1 h2
    omega
  · intro idx h1 h2
    have := lowbit_pos h1 h2
    have := lowbit_le h1 h2
    omega
  · intro s hs
    simp only [TraversalState.length, TraversalState.left_child,
      TraversalState.right_child] at *
    omega
  · intro s b e hnd hni
    simp only [TraversalState.is_disjoint, TraversalState.is_included,
      TraversalState.length] at *
    omega

/-- C9 witness: the measures at concrete inputs (`idx = 6`, node
`[0, 5)` split by a partially covering `[1, 3)`). -/
theorem C9_witness :
    (6 < 6 + lowbit 6) ∧ (6 - lowbit 6 < 6) ∧
    ((TraversalState.mk 1 0 5).left_child.length < (TraversalState.mk 1 0 5).length ∧
      (TraversalState.mk 1 0 5).right_child.length < (TraversalState.mk 1 0 5).length ∧
      0 < (TraversalState.mk 1 0 5).left_child.length ∧
      0 < (TraversalState.mk 1 0 5).right_child.length) ∧
    2 ≤ (TraversalState.mk 1 0 5).length :=
  ⟨C9_termination_measures.1 6 (by decide) (by decide),
    C9_termination_measures.2.1 6 (by decide) (by decide),
    C9_termination_measures.2.2.1 (TraversalState.mk 1 0 5) (by decide),
    C9_termination_measures.2.2.2 (TraversalState.mk 1 0 5) 1 3 (by decide) (by decide)⟩

/-! ## Claim C10: bounds on every touched backing-array index -/

/-- Node indices whose `values`/`thunks` entries `push(state)` touches. -/
def pushTouched (s : TraversalState) : List Nat :=
  if s.is_leaf then [s.idx] else [s.idx, s.left_child.idx, s.right_child.idx]

/-- Node indices touched by `_update(b, e, value, state)`, mirroring its
recursion (the trailing triple is the recombination
`values[idx] = combine(values[left], values[right])`). -/
def updateTouched (b e : Nat) : TraversalState → Nat → List Nat
  | _, 0 => []
  | s, fuel + 1 =>
    if s.is_disjoint b e then []
    else if s.is_included b e then s.idx :: pushTouched s
    else
      pushTouched s ++ updateTouched b e s.left_child fuel ++
        updateTouched b e s.right_child fuel ++
        [s.idx, s.left_child.idx, s.right_child.idx]

/-- Node indices touched by `_query(b, e, state)`. -/
def queryTouched (b e : Nat) : TraversalState → Nat → List Nat
  | _, 0 => []
  | s, fuel + 1 =>
    if s.is_disjoint b e then []
    else
      pushTouched s ++
        (if s.is_included b e then [s.idx]
         else queryTouched b e s.left_child fuel ++ queryTouched b e s.right_child fuel)

/-- Nodes of the tree decomposition of `[0, N)`: the root, plus both
children of every node that splits (covered length at least 2). -/
inductive Reach (N : Nat) : TraversalState → Prop
  | root : Reach N ⟨1, 0, N⟩
  | left {s : TraversalState} : Reach N s → 2 ≤ s.length → Reach N s.left_child
  | right {s : TraversalState} : Reach N s → 2 ≤ s.length → Reach N s.right_child

/-- Depth invariant of reachable nodes. -/
theorem reach_inv {N : Nat} {s : TraversalState} (h : Reach N s) (hN : 0 < N) :
    ∃ d, s.idx < 2 ^ (d + 1) ∧ 2 ^ d * (s.length - 1) < N ∧
      1 ≤ s.length ∧ 2 ^ d < 2 * N := by
  induction h with
  | root =>
    refine ⟨0, show (1 : Nat) < 2 ^ (0 + 1) by decide, ?_, ?_, ?_⟩
    · simp only [TraversalState.length, pow_zero, one_mul]
      omega
    · simp only [TraversalState.length]
      omega
    · simp only [pow_zero]
      omega
  | @left t hr hlen ih =>
    obtain ⟨d, h1, h2, h3, h4⟩ := ih
    refine ⟨d + 1, ?_, ?_, ?_, ?_⟩
    · have hidx : t.left_child.idx = t.idx * 2 := rfl
      have hp : 2 ^ (d + 1 + 1) = 2 * 2 ^ (d + 1) := by ring
      omega
    · have hstep : 2 * (t.left_child.length - 1) ≤ t.length - 1 := by
        simp only [TraversalState.length, TraversalState.left_child] at *
        omega
      have hmul : 2 ^ d * (2 * (t.left_child.length - 1)) ≤ 2 ^ d * (t.length - 1) :=
        Nat.mul_le_mul_left _ hstep
      have heq : 2 ^ (d + 1) * (t.left_child.length - 1)
          = 2 ^ d * (2 * (t.left_child.length - 1)) := by ring
      omega
    · simp only [TraversalState.length, TraversalState.left_child] at *
      omega
    · have hstep : 2 ^ d * 1 ≤ 2 ^ d * (t.length - 1) :=
        Nat.mul_le_mul_left _ (by omega)
      have hp : 2 ^ (d + 1) = 2 * 2 ^ d := by ring
      omega
  | @right t hr hlen ih =>
    obtain ⟨d, h1, h2, h3, h4⟩ := ih
    refine ⟨d + 1, ?_, ?_, ?_, ?_⟩
    · have hidx : t.right_child.idx = t.idx * 2 + 1 := rfl
      have hp : 2 ^ (d + 1 + 1) = 2 * 2 ^ (d + 1) := by ring
      omega
    · have hstep : 2 * (t.right_child.length - 1) ≤ t.length - 1 := by
        simp only [TraversalState.length, TraversalState.right_child] at *
        omega
      have hmul : 2 ^ d * (2 * (t.right_child.length - 1)) ≤ 2 ^ d * (t.length - 1) :=
        Nat.mul_le_mul_left _ hstep
      have heq : 2 ^ (d + 1) * (t.right_child.length - 1)
          = 2 ^ d * (2 * (t.right_child.length - 1)) := by ring
      omega
    · simp only [TraversalState.length, TraversalState.right_child] at *
      omega
    · have hstep : 2 ^ d * 1 ≤ 2 ^ d * (t.length - 1) :=
        Nat.mul_le_mul_left _ (by omega)
      have hp : 2 ^ (d + 1) = 2 * 2 ^ d := by ring
      omega

theorem npotGo_isPow (n : Nat) :
    ∀ fuel power, (∃ j, power = 2 ^ j) → ∃ k, npotGo n fuel power = 2 ^ k := by
  intro fuel
  induction fuel with
  | zero => intro power h; exact h
  | succ fuel ih =>
    intro power h
    rw [npotGo]
    split
    · exact ih (power * 2) (by obtain ⟨j, rfl⟩ := h; exact ⟨j + 1, by ring⟩)
    · exact h

theorem npotGo_ge (n : Nat) :
    ∀ fuel power, n ≤ 2 ^ fuel * power → n ≤ npotGo n fuel power := by
  intro fuel
  induction fuel with
  | zero => intro power h; simpa using h
  | succ fuel ih =>
    intro power h
    rw [npotGo]
    split
    · refine ih (power * 2) ?_
      have heq : 2 ^ (fuel + 1) * power = 2 ^ fuel * (power * 2) := by ring
      omega
    · omega

theorem next_power_of_two_isPow (n : Nat) : ∃ k, next_power_of_two n = 2 ^ k :=
  npotGo_isPow n n 1 ⟨0, rfl⟩

theorem next_power_of_two_ge (n : Nat) : n ≤ next_power_of_two n :=
  npotGo_ge n n 1 (by simpa using Nat.le_of_lt (Nat.lt_two_pow n))

/-- Every reachable node index is within the backing arrays. -/
theorem reach_idx_lt {N : Nat} {s : TraversalState} (h : Reach N s) (hN : 0 < N) :
    s.idx < 2 * next_power_of_two N := by
  obtain ⟨d, h1, _, _, h4⟩ := reach_inv h hN
  obtain ⟨k, hk⟩ := next_power_of_two_isPow N
  have hge : N ≤ 2 ^ k := hk ▸ next_power_of_two_ge N
  have hdk : d ≤ k := by
    by_contra hcon
    push_neg at hcon
    have : 2 ^ (k + 1) ≤ 2 ^ d := Nat.pow_le_pow_right (by omega) (by omega)
    have h5 : 2 ^ (k + 1) = 2 * 2 ^ k := by ring
    omega
  have : 2 ^ (d + 1) ≤ 2 ^ (k + 1) := Nat.pow_le_pow_right (by omega) (by omega)
  have h5 : 2 ^ (k + 1) = 2 * 2 ^ k := by ring
  omega

theorem reach_len_pos {N : Nat} {s : TraversalState} (h : Reach N s) (hN : 0 < N) :
    1 ≤ s.length :=
  (reach_inv h hN).choose_spec.2.2.1

theorem pushTouched_bound {N : Nat} {s : TraversalState} (h : Reach N s)
    (hN : 0 < N) {j : Nat} (hj : j ∈ pushTouched s) :
    j < 2 * next_power_of_two N := by
  unfold pushTouched at hj
  by_cases hl : s.is_leaf
  · rw [if_pos hl] at hj
    simp only [List.mem_singleton] at hj
    exact hj ▸ reach_idx_lt h hN
  · rw [if_neg hl] at hj
    have hlen : 2 ≤ s.length := by
      have h1 := reach_len_pos h hN
      unfold TraversalState.is_leaf at hl
      omega
    simp only [List.mem_cons, List.mem_singleton, List.not_mem_nil, or_false] at hj
    rcases hj with rfl | rfl | rfl
    · exact reach_idx_lt h hN
    · exact reach_idx_lt (Reach.left h hlen) hN
    · exact reach_idx_lt (Reach.right h hlen) hN

theorem updateTouched_bound {N : Nat} (hN : 0 < N) (b e : Nat) :
    ∀ (fuel : Nat) (s : TraversalState), Reach N s →
      ∀ j ∈ updateTouched b e s fuel, j < 2 * next_power_of_two N := by
  intro fuel
  induction fuel with
  | zero => intro s _ j hj; simp [updateTouched] at hj
  | succ fuel ih =>
    intro s hs j hj
    rw [updateTouched] at hj
    by_cases hd : s.is_disjoint b e
    · rw [if_pos hd] at hj; simp at hj
    · rw [if_neg hd] at hj
      by_cases hi : s.is_included b e
      · rw [if_pos hi] at hj
        simp only [List.mem_cons] at hj
        rcases hj with rfl | hj
        · exact reach_idx_lt hs hN
        · exact pushTouched_bound hs hN hj
      · rw [if_neg hi] at hj
        have hlen : 2 ≤ s.length := C9_termination_measures.2.2.2 s b e hd hi
        simp only [List.mem_append, List.mem_cons, List.mem_singleton,
          List.not_mem_nil, or_false] at hj
        rcases hj with ((hj | hj) | hj) | (rfl | rfl | rfl)
        · exact pushTouched_bound hs hN hj
        · exact ih s.left_child (Reach.left hs hlen) j hj
        · exact ih s.right_child (Reach.right hs hlen) j hj
        · exact reach_idx_lt hs hN
        · exact reach_idx_lt (Reach.left hs hlen) hN
        · exact reach_idx_lt (Reach.right hs hlen) hN

theorem queryTouched_bound {N : Nat} (hN : 0 < N) (b e : Nat) :
    ∀ (fuel : Nat) (s : TraversalState), Reach N s →
      ∀ j ∈ queryTouched b e s fuel, j < 2 * next_power_of_two N := by
  intro fuel
  induction fuel with
  | zero => intro s _ j hj; simp [queryTouched] at hj
  | succ fuel ih =>
    intro s hs j hj
    rw [queryTouched] at hj
    by_cases hd : s.is_disjoint b e
    · rw [if_pos hd] at hj; simp at hj
    · rw [if_neg hd] at hj
      simp only [List.mem_append] at hj
      rcases hj with hj | hj
      · exact pushTouched_bound hs hN hj
      · by_cases hi : s.is_included b e
        · rw [if_pos hi] at hj
          simp only [List.mem_singleton] at hj
          exact hj ▸ reach_idx_lt hs hN
        · rw [if_neg hi] at hj
          have hlen : 2 ≤ s.length := C9_termination_measures.2.2.2 s b e hd hi
          simp only [List.mem_append] at hj
          rcases hj with hj | hj
          · exact ih s.left_child (Reach.left hs hlen) j hj
          · exact ih s.right_child (Reach.right hs hlen) j hj

/-- `PrimitiveFenwickTree::add` at index `len` (one past the last position)
performs zero loop iterations: the initial guard `idx <= tree.len()` fails
at `idx = len + 1`, so nothing is written. -/
theorem primitive_add_at_len (F : FenwickCompatible E) (pf : PrimitiveFenwickTree E)
    (v : E) : pf.add F pf.len v = pf := by
  unfold PrimitiveFenwickTree.add
  rw [addLoop, if_neg (by omega)]

/-- C10: every backing-array index the lazy tree touches is in bounds, and
the Fenwick point-update at index `N` writes nothing.  The first two parts
bound every node index visited by `_update` / `_query` from the root
`⟨1, 0, N⟩` with the fuel the public wrappers pass (children of pushed
non-leaf nodes included via `pushTouched`) by `2 * next_power_of_two N`,
the backing-vector length; no restriction on `b`, `e` is even needed. -/
theorem C10_index_bounds :
    (∀ N b e j : Nat, j ∈ updateTouched b e (TraversalState.mk 1 0 N) (N + 1) →
      j < 2 * next_power_of_two N) ∧
    (∀ N b e j : Nat, j ∈ queryTouched b e (TraversalState.mk 1 0 N) (N + 1) →
      j < 2 * next_power_of_two N) ∧
    (∀ (E : Type) (F : FenwickCompatible E) (pf : PrimitiveFenwickTree E) (v : E),
      pf.add F pf.len v = pf) := by
  refine ⟨?_, ?_, fun _ F pf v => primitive_add_at_len F pf v⟩
  · intro N b e j hj
    rcases Nat.eq_zero_or_pos N with rfl | hN
    · have hd : (TraversalState.mk 1 0 0).is_disjoint b e := Or.inr (Nat.zero_le b)
      rw [updateTouched, if_pos hd] at hj
      simp at hj
    · exact updateTouched_bound hN b e (N + 1) (TraversalState.mk 1 0 N) Reach.root j hj
  · intro N b e j hj
    rcases Nat.eq_zero_or_pos N with rfl | hN
    · have hd : (TraversalState.mk 1 0 0).is_disjoint b e := Or.inr (Nat.zero_le b)
      rw [queryTouched, if_pos hd] at hj
      simp at hj
    · exact queryTouched_bound hN b e (N + 1) (TraversalState.mk 1 0 N) Reach.root j hj

/-- C10 witness: index 14 is touched by `update(3, 4, ...)` on a size-5
tree (a leaf of the decomposition) and is below `2 * next_power_of_two 5 =
16`; likewise for a query. -/
theorem C10_witness :
    (14 ∈ updateTouched 3 4 (TraversalState.mk 1 0 5) (5 + 1) ∧
      14 < 2 * next_power_of_two 5) ∧
    (14 ∈ queryTouched 3 4 (TraversalState.mk 1 0 5) (5 + 1) ∧
      14 < 2 * next_power_of_two 5) :=
  ⟨⟨by decide, C10_index_bounds.1 5 3 4 14 (by decide)⟩,
    ⟨by decide, C10_index_bounds.2.1 5 3 4 14 (by decide)⟩⟩

/-! ## Claims C5 and C6: the summation structure

The specification's law list for the Group contract (associativity,
commutativity, `add(x, neg(x)) == zero()`) omits that `zero` must be a unit
for `add`.  The structure genuinely needs the unit law: its backing arrays
are initialised with `zero()`, its query loops start folding from `zero()`
and `scale` folds from `zero()`, so a "group" whose `zero` is not a unit
(e.g. integers with `add = +`, `zero = 5`, `neg x = 5 - x`) makes both the
oracle equivalence (C5) and additivity (C6) fail.  With the unit law added
the contract is an abelian group and both claims hold. -/

/-- A structure satisfying the stated laws whose `zero` is not a unit:
integers with `zero = 5` and `neg x = 5 - x`. -/
def intShiftF : FenwickCompatible Int := ⟨5, fun x => 5 - x, (· + ·)⟩

theorem intShiftF_stated : FenwickLawsStated intShiftF where
  add_assoc := fun a b c => Int.add_assoc a b c
  add_comm := fun a b => Int.add_comm a b
  add_neg := fun a => by show a + (5 - a) = 5; omega

/-- The standard integer group, used for witnesses. -/
def intF : FenwickCompatible Int := ⟨0, fun x => -x, (· + ·)⟩

theorem intF_laws : FenwickLaws intF where
  add_assoc := fun a b c => Int.add_assoc a b c
  add_comm := fun a b => Int.add_comm a b
  add_neg := fun a => Int.add_right_neg a
  add_zero := fun a => Int.add_zero a

theorem FenwickLaws.zero_add_eq {F : FenwickCompatible E} (L : FenwickLaws F)
    (a : E) : F.add F.zero a = a :=
  (L.add_comm F.zero a).trans (L.add_zero a)

theorem FenwickLaws.split_around {F : FenwickCompatible E} (L : FenwickLaws F)
    (x y : E) : x = F.add y (F.sub x y) := by
  letI := L.acg
  show x = y + (x - y)
  abel

theorem FenwickLaws.sub_chain {F : FenwickCompatible E} (L : FenwickLaws F)
    (a b c : E) : F.sub c a = F.add (F.sub b a) (F.sub c b) := by
  letI := L.acg
  show c - a = b - a + (c - b)
  abel

theorem sum_self (F : FenwickCompatible E) (ft : FenwickTree E) (b : Nat) :
    ft.sum F b b = F.zero := by
  unfold FenwickTree.sum
  rw [if_pos (Nat.le_refl b)]

theorem sum_zero_lt (F : FenwickCompatible E) (ft : FenwickTree E) {e : Nat}
    (h : 0 < e) : ft.sum F 0 e = ft.sum_until F e := by
  unfold FenwickTree.sum
  rw [if_neg (by omega)]

theorem sum_succ_lt (F : FenwickCompatible E) (ft : FenwickTree E) {b e : Nat}
    (h : b + 1 < e) : ft.sum F (b + 1) e
      = F.sub (ft.sum_until F e) (ft.sum_until F (b + 1)) := by
  unfold FenwickTree.sum
  rw [if_neg (by omega)]

/-- C6 counterexample: under the laws exactly as stated (no unit law),
additivity fails: with integers, `add = +`, `zero = 5`, `neg x = 5 - x`
(which satisfy the stated laws), on a fresh size-3 structure with no `add`
calls at all, `sum(1,3) = 45` while `sum(1,2) + sum(2,3) = 50`. -/
theorem C6_counterexample :
    FenwickLawsStated intShiftF ∧
    (FenwickTree.replay intShiftF 3 []).sum intShiftF 1 3 = 45 ∧
    intShiftF.add ((FenwickTree.replay intShiftF 3 []).sum intShiftF 1 2)
      ((FenwickTree.replay intShiftF 3 []).sum intShiftF 2 3) = 50 ∧
    (45 : Int) ≠ 50 :=
  ⟨intShiftF_stated, by decide, by decide, by decide⟩

/-- C6 (amended): with the Group laws strengthened by the unit law
(`add(x, zero()) == x`), after any sequence of `add(b', e', v)` calls with
`b' ≤ e' ≤ N` on a size-`N` structure,
`sum(b, e) = add(sum(b, m), sum(m, e))` for all `b ≤ m ≤ e ≤ N` — the
bounds keeping every access of the prefix loops inside the backing
arrays, as in the source. -/
theorem C6_sum_additive {F : FenwickCompatible E} (L : FenwickLaws F) {N : Nat}
    (ops : List (Nat × Nat × E))
    (_hvalid : ∀ o ∈ ops, o.1 ≤ o.2.1 ∧ o.2.1 ≤ N)
    (b m e : Nat) (hbm : b ≤ m) (hme : m ≤ e) (_heN : e ≤ N) :
    (FenwickTree.replay F N ops).sum F b e
      = F.add ((FenwickTree.replay F N ops).sum F b m)
          ((FenwickTree.replay F N ops).sum F m e) := by
  set ft := FenwickTree.replay F N ops with hft
  rcases Nat.eq_or_lt_of_le hbm with rfl | hbm'
  · rw [sum_self, L.zero_add_eq]
  · rcases Nat.eq_or_lt_of_le hme with rfl | hme'
    · rw [sum_self, L.add_zero]
    · -- `b < m < e`; all three ranges are nonempty
      rcases Nat.eq_zero_or_pos b with rfl | hb
      · obtain ⟨m', rfl⟩ : ∃ m', m = m' + 1 := ⟨m - 1, by omega⟩
        rw [sum_zero_lt F ft (by omega), sum_zero_lt F ft (by omega),
          sum_succ_lt F ft hme']
        exact L.split_around _ _
      · obtain ⟨b', rfl⟩ : ∃ b', b = b' + 1 := ⟨b - 1, by omega⟩
        obtain ⟨m', rfl⟩ : ∃ m', m = m' + 1 := ⟨m - 1, by omega⟩
        rw [sum_succ_lt F ft (by omega), sum_succ_lt F ft (by omega),
          sum_succ_lt F ft hme']
        exact L.sub_chain _ _ _

/-- C6 witness: additivity instantiated on the standard integer group after
`add(0,3,2)` on a size-3 structure, at `b = 0`, `m = 2`, `e = 3`. -/
theorem C6_witness :
    ((∀ o ∈ [((0 : Nat), (3 : Nat), (2 : Int))], o.1 ≤ o.2.1 ∧ o.2.1 ≤ 3) ∧
      0 ≤ 2 ∧ 2 ≤ 3 ∧ 3 ≤ 3) ∧
    (FenwickTree.replay intF 3 [(0, 3, 2)]).sum intF 0 3
      = intF.add ((FenwickTree.replay intF 3 [(0, 3, 2)]).sum intF 0 2)
          ((FenwickTree.replay intF 3 [(0, 3, 2)]).sum intF 2 3) :=
  ⟨⟨by decide, by decide, by decide, by decide⟩,
    C6_sum_additive intF_laws [(0, 3, 2)] (by decide) 0 2 3
      (by decide) (by decide) (by decide)⟩

/-! ### Characterisation of the Fenwick point-update loop

Slot `j1` (1-based) of a Fenwick array covers positions
`[j1 - lowbit j1, j1)` (0-based).  The update loop starting at `i + 1`
writes exactly the in-range slots covering position `i`. -/

theorem addLoop_char (F : FenwickCompatible E) {len : Nat} (hlen : len < 2 ^ 64)
    (v : E) (i : Nat) :
    ∀ (fuel idx : Nat) (t : Nat → E),
      i < idx →
      (idx ≤ len → idx - lowbitR idx ≤ i) →
      len + 2 ≤ idx + fuel →
      ∀ j, addLoop F len v t idx fuel j
        = if idx ≤ j + 1 ∧ j + 1 ≤ len ∧ (j + 1) - lowbitR (j + 1) ≤ i
          then F.add (t j) v else t j := by
  intro fuel
  induction fuel with
  | zero =>
    intro idx t hi hcov hfuel j
    rw [addLoop, if_neg (by omega)]
  | succ fuel ih =>
    intro idx t hi hcov hfuel j
    rw [addLoop]
    by_cases hguard : idx ≤ len
    · rw [if_pos hguard]
      have hidx64 : idx < 2 ^ 64 := by omega
      have hipos : 0 < idx := by omega
      have hlb : lowbit idx = lowbitR idx := lowbit_eq_lowbitR hipos hidx64
      have hlbpos : 0 < lowbitR idx := lowbitR_pos hipos
      have hcovR : idx - lowbitR idx ≤ i := hcov hguard
      have hrec := ih (idx + lowbitR idx)
        (fupd t (idx - 1) (F.add (t (idx - 1)) v))
        (by omega)
        (fun _ => le_trans (cov_step_le hipos) hcovR)
        (by omega) j
      rw [hlb, hrec]
      by_cases hj : j = idx - 1
      · subst hj
        have hj1 : idx - 1 + 1 = idx := by omega
        rw [if_neg (by omega), fupd_same,
          if_pos (⟨by omega, by omega, by rw [hj1]; exact hcovR⟩ :
            idx ≤ idx - 1 + 1 ∧ idx - 1 + 1 ≤ len ∧
              (idx - 1 + 1) - lowbitR (idx - 1 + 1) ≤ i)]
      · rw [fupd_other _ _ _ (by omega)]
        by_cases houter : idx ≤ j + 1 ∧ j + 1 ≤ len ∧ (j + 1) - lowbitR (j + 1) ≤ i
        · obtain ⟨h1, h2, h3⟩ := houter
          have hstep : idx + lowbitR idx ≤ j + 1 :=
            chain_step_le (by omega) (by omega)
          rw [if_pos ⟨hstep, h2, h3⟩, if_pos ⟨h1, h2, h3⟩]
        · rw [if_neg (fun h => houter ⟨by omega, h.2.1, h.2.2⟩), if_neg houter]
    · rw [if_neg hguard, if_neg (by omega)]

/-- Accumulator extraction for the prefix-sum loop. -/
theorem sumLoop_acc {F : FenwickCompatible E} (L : FenwickLaws F) (t : Nat → E) :
    ∀ (fuel idx : Nat) (acc x : E),
      sumLoop F t idx fuel (F.add acc x) = F.add (sumLoop F t idx fuel acc) x := by
  intro fuel
  induction fuel with
  | zero => intro idx acc x; rw [sumLoop, sumLoop]
  | succ fuel ih =>
    intro idx acc x
    rw [sumLoop, sumLoop]
    by_cases h : 0 < idx
    · rw [if_pos h, if_pos h]
      have hsw : F.add (F.add acc x) (t (idx - 1))
          = F.add (F.add acc (t (idx - 1))) x := by
        letI := L.acg
        show acc + x + t (idx - 1) = acc + t (idx - 1) + x
        abel
      rw [hsw, ih]
    · rw [if_neg h, if_neg h]

/-- The prefix-sum loop only reads slots `0 … idx - 1`. -/
theorem sumLoop_congr (F : FenwickCompatible E) (t t' : Nat → E) :
    ∀ (fuel idx : Nat) (acc : E),
      (∀ j, 0 < j → j ≤ idx → t' (j - 1) = t (j - 1)) →
      sumLoop F t' idx fuel acc = sumLoop F t idx fuel acc := by
  intro fuel
  induction fuel with
  | zero => intro idx acc _; rw [sumLoop, sumLoop]
  | succ fuel ih =>
    intro idx acc h
    rw [sumLoop, sumLoop]
    by_cases hpos : 0 < idx
    · rw [if_pos hpos, if_pos hpos, h idx hpos (Nat.le_refl idx)]
      exact ih (idx - lowbit idx) _
        (fun j hj hle => h j hj (le_trans hle (Nat.sub_le ..)))
    · rw [if_neg hpos, if_neg hpos]

/-- Prefix-folding the array modified by a point update at `i` picks up the
inserted value exactly once when the prefix reaches `i`. -/
theorem sumLoop_insert {F : FenwickCompatible E} (L : FenwickLaws F) {len : Nat}
    (hlen : len < 2 ^ 64) (t : Nat → E) (i : Nat) (v : E) :
    ∀ (fuel idx : Nat) (acc : E), i + 1 ≤ idx → idx ≤ len → idx ≤ fuel →
      sumLoop F (addLoop F len v t (i + 1) (len + 1)) idx fuel acc
        = F.add (sumLoop F t idx fuel acc) v := by
  intro fuel
  induction fuel with
  | zero => intro idx acc h1 _ h3; omega
  | succ fuel ih =>
    intro idx acc h1 h2 h3
    have hpos : 0 < idx := by omega
    have hidx64 : idx < 2 ^ 64 := by omega
    have hlb : lowbit idx = lowbitR idx := lowbit_eq_lowbitR hpos hidx64
    have hlbpos : 0 < lowbitR idx := lowbitR_pos hpos
    have hchar : ∀ j, addLoop F len v t (i + 1) (len + 1) j
        = if i + 1 ≤ j + 1 ∧ j + 1 ≤ len ∧ (j + 1) - lowbitR (j + 1) ≤ i
          then F.add (t j) v else t j :=
      addLoop_char F hlen v i (len + 1) (i + 1) t (by omega)
        (fun _ => by have h0 : 0 < lowbitR (i + 1) := lowbitR_pos (by omega); omega) (by omega)
    have hidx1 : idx - 1 + 1 = idx := by omega
    rw [sumLoop, sumLoop, if_pos hpos, if_pos hpos, hlb]
    by_cases hc : idx - lowbitR idx ≤ i
    · -- this slot covers position `i`: it received the insertion
      have hslot : addLoop F len v t (i + 1) (len + 1) (idx - 1)
          = F.add (t (idx - 1)) v := by
        rw [hchar (idx - 1), hidx1, if_pos ⟨h1, h2, hc⟩]
      rw [hslot]
      have hcongr : sumLoop F (addLoop F len v t (i + 1) (len + 1))
            (idx - lowbitR idx) fuel
            (F.add acc (F.add (t (idx - 1)) v))
          = sumLoop F t (idx - lowbitR idx) fuel
            (F.add acc (F.add (t (idx - 1)) v)) := by
        apply sumLoop_congr
        intro j hj hle
        have hj1 : j - 1 + 1 = j := by omega
        rw [hchar (j - 1), hj1, if_neg (by omega)]
      have hshuffle : F.add acc (F.add (t (idx - 1)) v)
          = F.add (F.add acc (t (idx - 1))) v := by
        letI := L.acg
        show acc + (t (idx - 1) + v) = acc + t (idx - 1) + v
        abel
      rw [hcongr, hshuffle, sumLoop_acc L]
    · -- slot unmodified; keep searching lower slots
      have hslot : addLoop F len v t (i + 1) (len + 1) (idx - 1) = t (idx - 1) := by
        rw [hchar (idx - 1), hidx1, if_neg (by omega)]
      rw [hslot]
      exact ih (idx - lowbitR idx) _ (by omega) (by omega) (by omega)

/-- Point update / prefix query commutation for `PrimitiveFenwickTree`. -/
theorem psum_padd {F : FenwickCompatible E} (L : FenwickLaws F)
    (pf : PrimitiveFenwickTree E) (hlen : pf.len < 2 ^ 64) (i : Nat) (v : E)
    {q : Nat} (hq : q < pf.len) :
    (pf.add F i v).sum F q
      = if i ≤ q then F.add (pf.sum F q) v else pf.sum F q := by
  unfold PrimitiveFenwickTree.add PrimitiveFenwickTree.sum
  simp only
  by_cases hi : i ≤ q
  · rw [if_pos hi]
    exact sumLoop_insert L hlen pf.tree i v (q + 2) (q + 1) F.zero
      (by omega) (by omega) (by omega)
  · rw [if_neg hi]
    apply sumLoop_congr
    intro j hj hle
    have hchar := addLoop_char F hlen v i (pf.len + 1) (i + 1) pf.tree (by omega)
      (fun _ => by have h0 : 0 < lowbitR (i + 1) := lowbitR_pos (by omega); omega) (by omega) (j - 1)
    have hj1 : j - 1 + 1 = j := by omega
    rw [hchar, hj1, if_neg (by omega)]

/-! ### `scale` and fold algebra -/

theorem scale_zero (F : FenwickCompatible E) (a : E) : F.scale 0 a = F.zero := rfl

theorem scale_succ (F : FenwickCompatible E) (n : Nat) (a : E) :
    F.scale (n + 1) a = F.add (F.scale n a) a := by
  unfold FenwickCompatible.scale
  rw [List.range_succ, List.foldl_append]
  rfl

theorem scale_zero_elem {F : FenwickCompatible E} (L : FenwickLaws F) (n : Nat) :
    F.scale n F.zero = F.zero := by
  induction n with
  | zero => rfl
  | succ n ih => rw [scale_succ, ih, L.add_zero]

theorem scale_add_distrib {F : FenwickCompatible E} (L : FenwickLaws F)
    (n : Nat) (x y : E) :
    F.scale n (F.add x y) = F.add (F.scale n x) (F.scale n y) := by
  induction n with
  | zero => exact (L.add_zero F.zero).symm
  | succ n ih =>
    rw [scale_succ, scale_succ, scale_succ, ih]
    letI := L.acg
    show F.scale n x + F.scale n y + (x + y)
      = F.scale n x + x + (F.scale n y + y)
    abel

theorem scale_neg {F : FenwickCompatible E} (L : FenwickLaws F) (n : Nat) (x : E) :
    F.scale n (F.neg x) = F.neg (F.scale n x) := by
  induction n with
  | zero =>
    letI := L.acg
    show (0 : E) = -0
    abel
  | succ n ih =>
    rw [scale_succ, scale_succ, ih]
    letI := L.acg
    show -F.scale n x + -x = -(F.scale n x + x)
    abel

theorem scale_add_nat {F : FenwickCompatible E} (L : FenwickLaws F)
    (m n : Nat) (v : E) :
    F.scale (m + n) v = F.add (F.scale m v) (F.scale n v) := by
  induction n with
  | zero => exact (L.add_zero _).symm
  | succ n ih =>
    have h1 : m + (n + 1) = (m + n) + 1 := by omega
    rw [h1, scale_succ, ih, scale_succ]
    letI := L.acg
    show F.scale m v + F.scale n v + v = F.scale m v + (F.scale n v + v)
    abel

theorem scale_sub {F : FenwickCompatible E} (L : FenwickLaws F)
    {b e : Nat} (h : b ≤ e) (v : E) :
    F.scale (e - b) v = F.add (F.scale e v) (F.neg (F.scale b v)) := by
  have h3 : F.scale e v = F.add (F.scale (e - b) v) (F.scale b v) := by
    rw [← scale_add_nat L]
    congr 1
    omega
  letI := L.acg
  show F.scale (e - b) v = F.scale e v + -F.scale b v
  rw [h3]
  show F.scale (e - b) v = F.scale (e - b) v + F.scale b v + -F.scale b v
  abel

theorem sumLoop_zero_tree {F : FenwickCompatible E} (L : FenwickLaws F) :
    ∀ (fuel idx : Nat) (acc : E),
      sumLoop F (fun _ => F.zero) idx fuel acc = acc := by
  intro fuel
  induction fuel with
  | zero => intro idx acc; rw [sumLoop]
  | succ fuel ih =>
    intro idx acc
    rw [sumLoop]
    by_cases h : 0 < idx
    · rw [if_pos h, L.add_zero, ih]
    · rw [if_neg h]

/-! ### Range folds -/

theorem rangeFold_degenerate (F : FenwickCompatible E) (f : Nat → E) {b e : Nat}
    (h : e ≤ b) : rangeFold F f b e = F.zero := by
  unfold rangeFold
  rw [Nat.sub_eq_zero_of_le h, List.range'_zero, List.foldl_nil]

theorem rangeFold_succ (F : FenwickCompatible E) (f : Nat → E) {b e : Nat}
    (h : b ≤ e) : rangeFold F f b (e + 1) = F.add (rangeFold F f b e) (f e) := by
  unfold rangeFold
  have h1 : e + 1 - b = (e - b) + 1 := by omega
  rw [h1, List.range'_concat, List.foldl_append]
  have h2 : b + 1 * (e - b) = e := by omega
  rw [h2]
  rfl

theorem foldl_add_acc {F : FenwickCompatible E} (L : FenwickLaws F) (f : Nat → E) :
    ∀ (l : List Nat) (A : E),
      l.foldl (fun acc p => F.add acc (f p)) A
        = F.add A (l.foldl (fun acc p => F.add acc (f p)) F.zero) := by
  intro l
  induction l with
  | nil => intro A; exact (L.add_zero A).symm
  | cons hd tl ih =>
    intro A
    rw [List.foldl_cons, List.foldl_cons, ih (F.add A (f hd)),
      ih (F.add F.zero (f hd))]
    letI := L.acg
    show A + f hd + tl.foldl _ 0 = A + (0 + f hd + tl.foldl _ 0)
    abel

theorem rangeFold_split {F : FenwickCompatible E} (L : FenwickLaws F)
    (f : Nat → E) {b m e : Nat} (hbm : b ≤ m) (hme : m ≤ e) :
    rangeFold F f b e = F.add (rangeFold F f b m) (rangeFold F f m e) := by
  unfold rangeFold
  have h1 : e - b = (e - m) + (m - b) := by omega
  rw [h1, ← List.range'_append b (m - b) (e - m) 1]
  have h2 : b + 1 * (m - b) = m := by omega
  rw [h2, List.foldl_append, foldl_add_acc L]

theorem rangeFold_zero_fn {F : FenwickCompatible E} (L : FenwickLaws F)
    {f : Nat → E} (hf : ∀ p, f p = F.zero) (b e : Nat) :
    rangeFold F f b e = F.zero := by
  unfold rangeFold
  generalize List.range' b (e - b) = l
  induction l with
  | nil => rfl
  | cons hd tl ih =>
    rw [List.foldl_cons, hf hd, L.add_zero, ih]

theorem pointVal_append (F : FenwickCompatible E) (ops : List (Nat × Nat × E))
    (b e0 : Nat) (v : E) (p : Nat) :
    pointVal F (ops ++ [(b, e0, v)]) p
      = if b ≤ p ∧ p < e0 then F.add (pointVal F ops p) v
        else pointVal F ops p := by
  unfold pointVal
  rw [List.foldl_append, List.foldl_cons, List.foldl_nil]

/-- Folding the pointwise-bumped array over a prefix `[0, e)` accumulates
the bump once per overlapped position. -/
theorem rangeFold_pointwise_delta {F : FenwickCompatible E} (L : FenwickLaws F)
    (f : Nat → E) (b e0 : Nat) (v : E) :
    ∀ e, rangeFold F (fun p => if b ≤ p ∧ p < e0 then F.add (f p) v else f p) 0 e
      = F.add (rangeFold F f 0 e) (F.scale (min e e0 - min e b) v) := by
  intro e
  induction e with
  | zero =>
    rw [rangeFold_degenerate F _ (Nat.le_refl 0), rangeFold_degenerate F f (Nat.le_refl 0)]
    have h0 : min 0 e0 - min 0 b = 0 := by omega
    rw [h0, scale_zero, L.add_zero]
  | succ e ih =>
    rw [rangeFold_succ F _ (Nat.zero_le e), rangeFold_succ F f (Nat.zero_le e), ih]
    by_cases hin : b ≤ e ∧ e < e0
    · have hcnt : min (e + 1) e0 - min (e + 1) b = (min e e0 - min e b) + 1 := by omega
      rw [if_pos hin, hcnt, scale_succ]
      letI := L.acg
      show rangeFold F f 0 e + F.scale (min e e0 - min e b) v + (f e + v)
        = rangeFold F f 0 e + f e + (F.scale (min e e0 - min e b) v + v)
      abel
    · have hcnt : min (e + 1) e0 - min (e + 1) b = min e e0 - min e b := by omega
      rw [if_neg hin, hcnt]
      letI := L.acg
      show rangeFold F f 0 e + F.scale (min e e0 - min e b) v + f e
        = rangeFold F f 0 e + f e + F.scale (min e e0 - min e b) v
      abel

/-! ### The difference + weighted-offset encoding -/

theorem fenwick_add_degenerate (F : FenwickCompatible E) (ft : FenwickTree E)
    {b e0 : Nat} (h : b ≥ e0) (v : E) : ft.add F b e0 v = ft := by
  unfold FenwickTree.add
  rw [if_pos h]

theorem fenwick_add_pos (F : FenwickCompatible E) (ft : FenwickTree E)
    {b e0 : Nat} (h : b < e0) (v : E) :
    ft.add F b e0 v =
      ⟨(ft.diff.add F b v).add F e0 (F.neg v),
        (ft.offset.add F b (F.scale b (F.neg v))).add F e0 (F.scale e0 v)⟩ := by
  unfold FenwickTree.add
  rw [if_neg (by omega)]

theorem fenwick_add_lens (F : FenwickCompatible E) (ft : FenwickTree E)
    (b e0 : Nat) (v : E) :
    (ft.add F b e0 v).diff.len = ft.diff.len ∧
      (ft.add F b e0 v).offset.len = ft.offset.len := by
  unfold FenwickTree.add
  split
  · exact ⟨rfl, rfl⟩
  · exact ⟨rfl, rfl⟩

/-- One `add(b, e0, v)` call moves every in-range prefix total by the
number of bumped positions it covers, scaled onto `v`. -/
theorem sum_until_step {F : FenwickCompatible E} (L : FenwickLaws F) {N : Nat}
    (hN : N < 2 ^ 64) (ft : FenwickTree E) (hd : ft.diff.len = N)
    (ho : ft.offset.len = N) (b e0 : Nat) (v : E) {e : Nat}
    (he1 : 1 ≤ e) (heN : e ≤ N) :
    (ft.add F b e0 v).sum_until F e
      = F.add (ft.sum_until F e) (F.scale (min e e0 - min e b) v) := by
  by_cases hbe0 : b ≥ e0
  · rw [fenwick_add_degenerate F ft hbe0]
    have hc : min e e0 - min e b = 0 := by omega
    rw [hc, scale_zero, L.add_zero]
  · push_neg at hbe0
    rw [fenwick_add_pos F ft hbe0]
    unfold FenwickTree.sum_until
    simp only
    have hlen1 : (ft.diff.add F b v).len = ft.diff.len := rfl
    have hlen2 : (ft.offset.add F b (F.scale b (F.neg v))).len = ft.offset.len := rfl
    have hD2 := psum_padd L (ft.diff.add F b v)
      (by rw [hlen1, hd]; exact hN) e0 (F.neg v)
      (q := e - 1) (by rw [hlen1, hd]; omega)
    have hD1 := psum_padd L ft.diff (by rw [hd]; exact hN) b v
      (q := e - 1) (by rw [hd]; omega)
    have hO2 := psum_padd L (ft.offset.add F b (F.scale b (F.neg v)))
      (by rw [hlen2, ho]; exact hN) e0 (F.scale e0 v)
      (q := e - 1) (by rw [hlen2, ho]; omega)
    have hO1 := psum_padd L ft.offset (by rw [ho]; exact hN) b
      (F.scale b (F.neg v)) (q := e - 1) (by rw [ho]; omega)
    rw [hD2, hD1, hO2, hO1]
    by_cases hb : b ≤ e - 1
    · by_cases he0 : e0 ≤ e - 1
      · have hcnt : min e e0 - min e b = e0 - b := by omega
        rw [if_pos hb, if_pos he0, if_pos hb, if_pos he0, hcnt,
          scale_add_distrib L, scale_add_distrib L, scale_neg L,
          scale_sub L (show b ≤ e0 by omega)]
        letI := L.acg
        show F.scale e (ft.diff.sum F (e - 1)) + F.scale e v + -F.scale e v
            + (ft.offset.sum F (e - 1) + F.scale b (F.neg v) + F.scale e0 v)
          = F.scale e (ft.diff.sum F (e - 1)) + ft.offset.sum F (e - 1)
            + (F.scale e0 v + -F.scale b v)
        rw [scale_neg L]
        show F.scale e (ft.diff.sum F (e - 1)) + F.scale e v + -F.scale e v
            + (ft.offset.sum F (e - 1) + -F.scale b v + F.scale e0 v)
          = F.scale e (ft.diff.sum F (e - 1)) + ft.offset.sum F (e - 1)
            + (F.scale e0 v + -F.scale b v)
        abel
      · have hcnt : min e e0 - min e b = e - b := by omega
        rw [if_pos hb, if_neg he0, if_pos hb, if_neg he0, hcnt,
          scale_add_distrib L, scale_sub L (show b ≤ e by omega)]
        letI := L.acg
        show F.scale e (ft.diff.sum F (e - 1)) + F.scale e v
            + (ft.offset.sum F (e - 1) + F.scale b (F.neg v))
          = F.scale e (ft.diff.sum F (e - 1)) + ft.offset.sum F (e - 1)
            + (F.scale e v + -F.scale b v)
        rw [scale_neg L]
        show F.scale e (ft.diff.sum F (e - 1)) + F.scale e v
            + (ft.offset.sum F (e - 1) + -F.scale b v)
          = F.scale e (ft.diff.sum F (e - 1)) + ft.offset.sum F (e - 1)
            + (F.scale e v + -F.scale b v)
        abel
    · have hne0 : ¬ e0 ≤ e - 1 := by omega
      have hcnt : min e e0 - min e b = 0 := by omega
      rw [if_neg hb, if_neg hne0, if_neg hb, if_neg hne0, hcnt, scale_zero,
        L.add_zero]

theorem replay_append (F : FenwickCompatible E) (N : Nat)
    (l : List (Nat × Nat × E)) (o : Nat × Nat × E) :
    FenwickTree.replay F N (l ++ [o])
      = (FenwickTree.replay F N l).add F o.1 o.2.1 o.2.2 := by
  unfold FenwickTree.replay
  rw [List.foldl_append, List.foldl_cons, List.foldl_nil]

theorem replay_lens (F : FenwickCompatible E) (N : Nat)
    (ops : List (Nat × Nat × E)) :
    (FenwickTree.replay F N ops).diff.len = N ∧
      (FenwickTree.replay F N ops).offset.len = N := by
  induction ops using List.reverseRecOn with
  | nil => exact ⟨rfl, rfl⟩
  | append_singleton l o ih =>
    rw [replay_append]
    obtain ⟨h1, h2⟩ := fenwick_add_lens F (FenwickTree.replay F N l) o.1 o.2.1 o.2.2
    rw [h1, h2]
    exact ih

/-- Replay invariant: every in-range prefix total of the pair of Fenwick
arrays equals the fold of the pointwise simulation. -/
theorem replay_sum_until {F : FenwickCompatible E} (L : FenwickLaws F) {N : Nat}
    (hN : N < 2 ^ 64) (ops : List (Nat × Nat × E)) :
    ∀ {e : Nat}, 1 ≤ e → e ≤ N →
      (FenwickTree.replay F N ops).sum_until F e
        = rangeFold F (pointVal F ops) 0 e := by
  induction ops using List.reverseRecOn with
  | nil =>
    intro e he1 heN
    show (FenwickTree.new F N).sum_until F e = _
    unfold FenwickTree.sum_until FenwickTree.new PrimitiveFenwickTree.new
      PrimitiveFenwickTree.sum
    simp only
    rw [sumLoop_zero_tree L, scale_zero_elem L, L.add_zero]
    exact (rangeFold_zero_fn L (fun p => rfl) 0 e).symm
  | append_singleton l o ih =>
    intro e he1 heN
    obtain ⟨b, e0, v⟩ := o
    rw [replay_append]
    have hlens := replay_lens F N l
    rw [sum_until_step L hN _ hlens.1 hlens.2 b e0 v he1 heN, ih he1 heN]
    have hpv : pointVal F (l ++ [(b, e0, v)])
        = fun p => if b ≤ p ∧ p < e0 then F.add (pointVal F l p) v
          else pointVal F l p :=
      funext fun p => pointVal_append F l b e0 v p
    rw [hpv, rangeFold_pointwise_delta L (pointVal F l) b e0 v e]

/-- C5 counterexample: under the laws exactly as stated (no unit law), the
oracle equivalence fails: with integers, `add = +`, `zero = 5`,
`neg x = 5 - x`, a fresh size-2 structure with no `add` calls returns
`sum(0,1) = 25`, while the pointwise total at position 0 is `zero() = 5`
and its group-sum over `[0,1)` is 10. -/
theorem C5_counterexample :
    FenwickLawsStated intShiftF ∧
    (FenwickTree.replay intShiftF 2 []).sum intShiftF 0 1 = 25 ∧
    oracleSum intShiftF [] 0 1 = 10 ∧ (25 : Int) ≠ 10 :=
  ⟨intShiftF_stated, by decide, by decide, by decide⟩

/-- C5 (amended): with the Group laws strengthened by the unit law
(`add(x, zero()) == x`) and size below `2^64` (`usize` width), after
replaying any sequence of `add(b, e, v)` calls with `b ≤ e ≤ N`,
`sum(begin, end)` with `begin ≤ end ≤ N` equals the group-sum over every
position in `[begin, end)` of its pointwise total; and `sum` returns
`zero()` whenever `begin ≥ end`. -/
theorem C5_oracle_equivalence {F : FenwickCompatible E} (L : FenwickLaws F)
    {N : Nat} (hN : N < 2 ^ 64) (ops : List (Nat × Nat × E))
    (_hvalid : ∀ o ∈ ops, o.1 ≤ o.2.1 ∧ o.2.1 ≤ N) :
    (∀ b e, b ≤ e → e ≤ N →
      (FenwickTree.replay F N ops).sum F b e = oracleSum F ops b e) ∧
    (∀ b e, e ≤ b → (FenwickTree.replay F N ops).sum F b e = F.zero) := by
  constructor
  · intro b e hbe heN
    rcases Nat.eq_or_lt_of_le hbe with rfl | hlt
    · rw [sum_self]
      exact (rangeFold_degenerate F _ (Nat.le_refl b)).symm
    · rcases Nat.eq_zero_or_pos b with rfl | hb
      · rw [sum_zero_lt F _ hlt]
        exact replay_sum_until L hN ops (by omega) heN
      · obtain ⟨b', rfl⟩ : ∃ b', b = b' + 1 := ⟨b - 1, by omega⟩
        rw [sum_succ_lt F _ hlt, replay_sum_until L hN ops (by omega) heN,
          replay_sum_until L hN ops (by omega) (by omega),
          rangeFold_split L (pointVal F ops) (Nat.zero_le (b' + 1))
            (show b' + 1 ≤ e by omega)]
        letI := L.acg
        show rangeFold F (pointVal F ops) 0 (b' + 1)
            + rangeFold F (pointVal F ops) (b' + 1) e
            - rangeFold F (pointVal F ops) 0 (b' + 1)
          = rangeFold F (pointVal F ops) (b' + 1) e
        abel
  · intro b e hle
    unfold FenwickTree.sum
    rw [if_pos hle]

/-- C5 witness: the amended statement instantiated on the standard integer
group, size 3, `add(0,2,3); add(1,3,-1)`, queried at `(1,3)` and at the
degenerate `(2,1)`. -/
theorem C5_witness :
    ((3 : Nat) < 2 ^ 64 ∧
      (∀ o ∈ [((0 : Nat), (2 : Nat), (3 : Int)), (1, 3, -1)],
        o.1 ≤ o.2.1 ∧ o.2.1 ≤ 3)) ∧
    (FenwickTree.replay intF 3 [(0, 2, 3), (1, 3, -1)]).sum intF 1 3
      = oracleSum intF [(0, 2, 3), (1, 3, -1)] 1 3 ∧
    (FenwickTree.replay intF 3 [(0, 2, 3), (1, 3, -1)]).sum intF 2 1 = intF.zero :=
  ⟨⟨by decide, by decide⟩,
    (C5_oracle_equivalence intF_laws (by decide) _ (by decide)).1 1 3
      (by decide) (by decide),
    (C5_oracle_equivalence intF_laws (by decide) _ (by decide)).2 2 1 (by decide)⟩

end Procon
